import Mathlib

/-!
Shallow embedding of the inventory-management game engine in `src/game.py`
(the class `InteractiveInventoryGame`, the order-submission logic of
`render_step_6_order`, and the quiz bonus of `render_step_1_products`),
together with proofs about the embedded code.

Conventions used throughout:
* Python floats are modelled as exact rationals (`ℚ`) where the code performs
  only field arithmetic, and as real numbers (`ℝ`) where `math.sqrt` or
  `scipy.stats.norm.ppf` is involved.
* Python dicts keyed by product id are modelled as association lists
  (`List (String × _)`, insertion ordered, keys unique) or, for the rolling
  sales history, as a total function `String → List ℕ`.
* The draws of `random.uniform(0.7, 1.3)` are passed in explicitly
  (`u : String → ℚ`, one draw per SKU id per day), which makes the daily
  simulator a pure function of the draws.
-/

namespace InventoryGame

/-- Python's `int(x)` conversion truncates toward zero: on a rational
`num/den` (with `den > 0`) it is the truncating division of the numerator by
the denominator. -/
def pyTrunc (q : ℚ) : ℤ := q.num.tdiv q.den

/-- The `SimpleProduct` dataclass of `src/game.py`. -/
structure SimpleProduct where
  id : String
  name : String
  icon : String
  price : ℚ
  cost : ℚ
  current_stock : ℕ
  daily_demand : ℕ
  lead_time : ℕ
  order_interval : ℕ
deriving DecidableEq

/-- One entry of `st.session_state.pending_orders` (a dict value built in
`render_step_6_order`). -/
structure PendingOrder where
  quantity : ℕ
  days_remaining : ℤ
  cost : ℚ
deriving DecidableEq

/-- One per-SKU entry of the `daily_sales` dict built in
`process_daily_sales`. -/
structure SaleRecord where
  demand : ℕ
  sales : ℕ
  revenue : ℚ
  profit : ℚ
  stock_after : ℕ
deriving DecidableEq

/-- One entry of the `stockouts` list built in `process_daily_sales`. -/
structure StockoutEvent where
  product : String
  shortage : ℕ
  lost_revenue : ℚ
deriving DecidableEq

/-- The per-day `report` dict built in `process_daily_sales`. -/
structure DailyReport where
  day : ℕ
  sales : List (String × SaleRecord)
  total_revenue : ℚ
  total_cost : ℚ
  profit : ℚ
  stockouts : List StockoutEvent
  cash : ℚ
  score_today : ℚ
deriving DecidableEq

/-- The parts of `st.session_state` that the engine (as opposed to the UI)
reads and writes. -/
structure GameState where
  day : ℕ
  cash : ℚ
  total_revenue : ℚ
  total_profit : ℚ
  score : ℚ
  products : List SimpleProduct
  sales_history : String → List ℕ
  pending_orders : List (String × PendingOrder)
  daily_reports : List DailyReport

/-- `np.mean(history)` on a list of daily sales counts (exact rational
arithmetic in place of floating point). -/
def npMean (l : List ℕ) : ℚ := (l.map (fun x => (x : ℚ))).sum / l.length

/-- The population variance underlying `np.std(history)` (divisor is the
window length, not length minus one). -/
def npVar (l : List ℕ) : ℚ :=
  (l.map (fun x => ((x : ℚ) - npMean l) ^ 2)).sum / l.length

/-- `np.std(history)`: the population standard deviation. -/
noncomputable def npStd (l : List ℕ) : ℝ := Real.sqrt ((npVar l : ℚ) : ℝ)

/-- The dict returned by `InteractiveInventoryGame.calculate_demand_stats`. -/
structure DemandStats where
  mean : ℚ
  std : ℝ
  cv : ℝ

/-- `InteractiveInventoryGame.calculate_demand_stats`, as a function of the
SKU's rolling history. -/
noncomputable def calculate_demand_stats (history : List ℕ) : DemandStats :=
  { mean := npMean history
    std := npStd history
    cv := if 0 < npMean history then npStd history / ((npMean history : ℚ) : ℝ) else 0 }

/-- The products dict created by `InteractiveInventoryGame.create_products`
(dict values in insertion order; the dict key always equals the `id` field). -/
def create_products : List SimpleProduct :=
  [ { id := (r"WATER"), name := (r"矿泉水"), icon := (r"💧"),
      price := 3, cost := 1, current_stock := 120,
      daily_demand := 30, lead_time := 3, order_interval := 3 },
    { id := (r"BREAD"), name := (r"面包"), icon := (r"🍞"),
      price := 8, cost := 4, current_stock := 60,
      daily_demand := 20, lead_time := 5, order_interval := 5 },
    { id := (r"MILK"), name := (r"牛奶"), icon := (r"🥛"),
      price := 12, cost := 7, current_stock := 50,
      daily_demand := 15, lead_time := 2, order_interval := 5 } ]

/-- `InteractiveInventoryGame.create_sales_history`.  The Python dict raises
`KeyError` on a missing key; the model returns `[]` for ids outside the
catalog, which no code path reaches. -/
def create_sales_history : String → List ℕ := fun k =>
  if k = (r"WATER") then [28, 32, 30, 35, 29, 31, 33]
  else if k = (r"BREAD") then [12, 28, 15, 35, 10, 30, 25]
  else if k = (r"MILK") then [14, 16, 15, 13, 17, 15, 16]
  else []

/-- The session state seeded by `InteractiveInventoryGame.initialize_game`. -/
def initGameState : GameState :=
  { day := 1
    cash := 10000
    total_revenue := 0
    total_profit := 0
    score := 0
    products := create_products
    sales_history := create_sales_history
    pending_orders := []
    daily_reports := [] }

/-- The demand drawn on one day for one SKU in `process_daily_sales`:
`max(1, int(base_demand * random.uniform(0.7, 1.3)))`, with the uniform draw
`u` passed in explicitly.  Python's `int` truncates toward zero. -/
def dailyDemandDraw (base : ℕ) (u : ℚ) : ℕ :=
  max 1 (pyTrunc ((base : ℚ) * u)).toNat

/-- The body of the per-product sales loop in `process_daily_sales`: draws
demand, fulfills `min(actual_demand, current_stock)`, decrements stock, and
builds the `daily_sales` record for the SKU. -/
def sellProduct (u : String → ℚ) (p : SimpleProduct) : SimpleProduct × SaleRecord :=
  let demand := dailyDemandDraw p.daily_demand (u p.id)
  let sales := min demand p.current_stock
  ( { p with current_stock := p.current_stock - sales },
    { demand := demand
      sales := sales
      revenue := (sales : ℚ) * p.price
      profit := (sales : ℚ) * p.price - (sales : ℚ) * p.cost
      stock_after := p.current_stock - sales } )

/-- Rolling-history update of `process_daily_sales`: append today's fulfilled
sales, then `pop(0)` once if the window exceeds 7 entries. -/
def updateHist (h : String → List ℕ) (k : String) (v : ℕ) : String → List ℕ :=
  fun q =>
    if q = k then
      (if 7 < (h k ++ [v]).length then (h k ++ [v]).drop 1 else h k ++ [v])
    else h q

/-- Credit an arrived order's quantity to the matching product
(`products[product_id].current_stock += order['quantity']`). -/
def creditStock (ps : List SimpleProduct) (k : String) (q : ℕ) : List SimpleProduct :=
  ps.map (fun p => if p.id = k then { p with current_stock := p.current_stock + q } else p)

/-- The order-arrival loop of `process_daily_sales`: each pending order's
`days_remaining` is decremented; orders that drop to `<= 0` credit their
quantity to the SKU's stock and are deleted from the dict. -/
def advanceOrders :
    List (String × PendingOrder) → List SimpleProduct →
    List (String × PendingOrder) × List SimpleProduct
  | [], ps => ([], ps)
  | (k, o) :: rest, ps =>
    let d := o.days_remaining - 1
    if d ≤ 0 then advanceOrders rest (creditStock ps k o.quantity)
    else
      let res := advanceOrders rest ps
      ((k, { o with days_remaining := d }) :: res.1, res.2)

/-- `InteractiveInventoryGame.process_daily_sales`, as a pure function of the
state and of the day's uniform draws `u` (one per SKU id).  Returns the new
state together with the day's report (the Python method mutates
`st.session_state`, appends the report and returns it). -/
def process_daily_sales (u : String → ℚ) (s : GameState) : GameState × DailyReport :=
  let sold := s.products.map (sellProduct u)
  let daily_sales := sold.map (fun pr => (pr.1.id, pr.2))
  let dayRevenue := (sold.map (fun pr => pr.2.revenue)).sum
  let dayCost := (sold.map (fun pr => (pr.2.sales : ℚ) * pr.1.cost)).sum
  let stockouts := sold.filterMap (fun pr =>
    if pr.2.sales < pr.2.demand then
      some { product := pr.1.name
             shortage := pr.2.demand - pr.2.sales
             lost_revenue := ((pr.2.demand - pr.2.sales : ℕ) : ℚ) * pr.1.price }
    else none)
  let hist := sold.foldl (fun h pr => updateHist h pr.1.id pr.2.sales) s.sales_history
  let adv := advanceOrders s.pending_orders (sold.map (fun pr => pr.1))
  let profit := dayRevenue - dayCost
  let score_today :=
    (if 0 < profit then profit * (1 / 10) else 0) + (if stockouts.isEmpty then 50 else 0)
  let report : DailyReport :=
    { day := s.day
      sales := daily_sales
      total_revenue := dayRevenue
      total_cost := dayCost
      profit := profit
      stockouts := stockouts
      cash := s.cash + profit
      score_today := score_today }
  ( { s with
      day := s.day + 1
      cash := s.cash + profit
      total_revenue := s.total_revenue + dayRevenue
      total_profit := s.total_profit + profit
      score := s.score + score_today
      products := adv.2
      sales_history := hist
      pending_orders := adv.1
      daily_reports := s.daily_reports ++ [report] },
    report )

/-- Iterate `process_daily_sales` for `n` days; `us i` supplies day `i`'s
uniform draws. -/
def advanceDays (us : ℕ → String → ℚ) : ℕ → GameState → GameState
  | 0, s => s
  | n + 1, s => advanceDays (fun i => us (i + 1)) n (process_daily_sales (us 0) s).1

/-- The standard normal cumulative distribution function, as the CDF of the
Gaussian measure with mean `0` and variance `1`. -/
noncomputable def Phi : ℝ → ℝ :=
  ProbabilityTheory.cdf (ProbabilityTheory.gaussianReal 0 1)

/-- Model of `scipy.stats.norm.ppf`, which the spec describes as "the inverse
standard normal cumulative distribution function evaluated at the service
level": the lower quantile function of the standard normal distribution,
which coincides with the inverse of `Phi` on the open interval `(0,1)`. -/
noncomputable def norm_ppf (p : ℝ) : ℝ := sSup {x : ℝ | Phi x < p}

/-- Error values for the policy-input validation that §7 of the spec
describes. -/
inductive PolicyError
  | invalidServiceLevel
deriving DecidableEq

/-- The safety-stock formula computed by `calculate_safety_stock`, as a
function of the service level, the demand standard deviation `sigma` and the
lead time: `z * sigma * sqrt(lead_time)` with `z = norm_ppf service_level`. -/
noncomputable def safety_stock (service_level sigma : ℝ) (lead_time : ℕ) : ℝ :=
  norm_ppf service_level * sigma * Real.sqrt lead_time

/-- `InteractiveInventoryGame.calculate_safety_stock`, as a function of the
SKU's rolling history, its lead time, and the service level.  Python
functions may raise, so the embedding returns `Except`; this function's body
has no branch at all — in particular no validation of `service_level` — and
every outcome is `Except.ok`. -/
noncomputable def calculate_safety_stock (history : List ℕ) (lead_time : ℕ)
    (service_level : ℝ) : Except PolicyError ℝ :=
  Except.ok (safety_stock service_level (npStd history) lead_time)

open scoped Classical in
/-- The safety-stock computation as §7 of the spec describes it: service
levels at or outside `(0,1)` are rejected as an invalid-input error before
anything is computed. -/
noncomputable def calculate_safety_stock_spec (history : List ℕ) (lead_time : ℕ)
    (service_level : ℝ) : Except PolicyError ℝ :=
  if service_level ≤ 0 ∨ 1 ≤ service_level then
    Except.error PolicyError.invalidServiceLevel
  else Except.ok (safety_stock service_level (npStd history) lead_time)

/-- `InteractiveInventoryGame.calculate_reorder_point`: the mean it
multiplies by the lead time is `calculate_demand_stats(product_id)['mean']`,
the historical mean of the rolling window. -/
noncomputable def calculate_reorder_point (history : List ℕ) (lead_time : ℕ)
    (safety_stock_val : ℝ) : ℝ :=
  (((calculate_demand_stats history).mean : ℚ) : ℝ) * lead_time + safety_stock_val

/-- The reorder-point computation of `render_step_5_calculate` (line 767):
`forecast * product.lead_time + safety_stock`, where `forecast` is
`st.session_state.player_predictions.get(product_id, demand_stats['mean'])` —
the player's prediction when present, the system's historical mean
otherwise. -/
noncomputable def step5_reorder_point (player_prediction : Option ℝ)
    (history : List ℕ) (lead_time : ℕ) (safety_stock_val : ℝ) : ℝ :=
  player_prediction.getD ((npMean history : ℚ) : ℝ) * lead_time + safety_stock_val

/-- `InteractiveInventoryGame.should_reorder`:
`product.current_stock <= reorder_point`. -/
def should_reorder (p : SimpleProduct) (reorder_point : ℝ) : Prop :=
  (p.current_stock : ℝ) ≤ reorder_point

/-- Failure modes of the order-submission flow of `render_step_6_order`. -/
inductive SubmitError
  | insufficientFunds
  | keyError
deriving DecidableEq

/-- The `products[k]` dict lookup (the dict key equals the product's `id`). -/
def findProduct (ps : List SimpleProduct) (k : String) : Option SimpleProduct :=
  ps.find? (fun p => p.id == k)

/-- The `total_cost` accumulation of `render_step_6_order` (lines 845-849):
every SKU in the submitted dict is looked up (a missing key would raise
`KeyError`, modelled as `none`) and quantities `> 0` contribute
`qty * product.cost`. -/
def totalOrderCost (ps : List SimpleProduct) : List (String × ℕ) → Option ℚ
  | [] => some 0
  | (k, q) :: rest =>
    match findProduct ps k, totalOrderCost ps rest with
    | some p, some c => some ((if 0 < q then (q : ℚ) * p.cost else 0) + c)
    | _, _ => none

/-- Assignment `d[k] = v` on a dict modelled as an association list: replace
the value in place when the key is present, append the pair otherwise. -/
def dictInsert (l : List (String × PendingOrder)) (k : String) (v : PendingOrder) :
    List (String × PendingOrder) :=
  if l.any (fun kv => kv.1 == k) then
    l.map (fun kv => if kv.1 = k then (k, v) else kv)
  else l ++ [(k, v)]

/-- Dict lookup `d.get(k)` on the pending-orders association list. -/
def lookupPending (l : List (String × PendingOrder)) (k : String) :
    Option PendingOrder :=
  (l.find? (fun kv => kv.1 == k)).map (fun kv => kv.2)

/-- One iteration of the commit loop of `render_step_6_order`: a positive
quantity executes `pending_orders[product_id] = {'quantity': qty,
'days_remaining': lead_time, 'cost': qty * cost}`. -/
def submitStep (ps : List SimpleProduct) (pend : List (String × PendingOrder))
    (kq : String × ℕ) : List (String × PendingOrder) :=
  if 0 < kq.2 then
    match findProduct ps kq.1 with
    | some p =>
      dictInsert pend kq.1
        { quantity := kq.2
          days_remaining := (p.lead_time : ℤ)
          cost := (kq.2 : ℚ) * p.cost }
    | none => pend
  else pend

/-- The order-submission logic of `render_step_6_order` (lines 841-890):
compute the batch's total cost over the positive quantities; when it exceeds
available cash the whole batch is rejected (the UI shows the
insufficient-funds error, the commit button is not rendered, and the session
state is untouched); otherwise every positive-quantity order is written into
`pending_orders` (with `days_remaining = lead_time` and cost basis
`qty * cost`) and cash is debited by the total at submission time. -/
def submit_orders (orders : List (String × ℕ)) (s : GameState) :
    Except SubmitError GameState :=
  match totalOrderCost s.products orders with
  | none => Except.error SubmitError.keyError
  | some total =>
    if 0 ≤ s.cash - total then
      Except.ok
        { s with
          pending_orders := orders.foldl (submitStep s.products) s.pending_orders
          cash := s.cash - total }
    else Except.error SubmitError.insufficientFunds

/-- The step-1 quiz of `render_step_1_products` (lines 487-492): a correct
answer adds a flat `+10` to the score, a wrong answer changes nothing. -/
def quizStep1Bonus (correct : Bool) (s : GameState) : GameState :=
  if correct then { s with score := s.score + 10 } else s

/-- An engine event that can change the cumulative score: one simulated day
(with its uniform draws) or one quiz submission. -/
inductive GameEvent
  | simDay (u : String → ℚ)
  | quiz (correct : Bool)

/-- Apply one event to the session state. -/
def applyEvent : GameEvent → GameState → GameState
  | GameEvent.simDay u, s => (process_daily_sales u s).1
  | GameEvent.quiz c, s => quizStep1Bonus c s

/-- Apply a sequence of events to the session state. -/
def applyEvents (evs : List GameEvent) (s : GameState) : GameState :=
  evs.foldl (fun s e => applyEvent e s) s

/-- The per-day demand formula as the spec's words state it:
`max(1, round(base_daily_demand * U))` — rounding, where the code
truncates. -/
def specDemandDraw (base : ℕ) (u : ℚ) : ℕ :=
  max 1 (round ((base : ℚ) * u)).toNat

/-- Whether an embedded Python computation raised (was rejected) rather than
returning a value. -/
def isRejected {ε α : Type _} : Except ε α → Bool
  | Except.error _ => true
  | Except.ok _ => false

/-- For nonnegative arguments, Python's truncating `int` conversion agrees
with the floor. -/
theorem pyTrunc_eq_floor {q : ℚ} (hq : 0 ≤ q) : pyTrunc q = ⌊q⌋ := by
  rw [pyTrunc, Rat.floor_def,
    Int.tdiv_eq_ediv (Rat.num_nonneg.mpr hq) (Int.ofNat_nonneg q.den)]

/-- C2, counterexample.  At service level `0` — outside the open interval
`(0,1)` — `calculate_safety_stock` silently returns a value (`Except.ok`),
whereas the computation described by the spec rejects it: the claim that out
of range service levels are rejected as an invalid-input error is false on
the code. -/
theorem C2_counterexample :
    isRejected (calculate_safety_stock [28, 32, 30, 35, 29, 31, 33] 3 0) = false ∧
      isRejected (calculate_safety_stock_spec [28, 32, 30, 35, 29, 31, 33] 3 0) = true := by
  constructor
  · rfl
  · rw [calculate_safety_stock_spec, if_pos (Or.inl le_rfl)]
    rfl

/-- C2, amended.  `calculate_safety_stock` performs no validation at all: for
every service level (inside or outside `(0,1)`) it returns
`Except.ok (z * sigma * sqrt lead_time)` with `z = norm_ppf service_level`,
and is never a rejection. -/
theorem C2_no_validation (hist : List ℕ) (lead : ℕ) (sl : ℝ) :
    calculate_safety_stock hist lead sl =
        Except.ok (safety_stock sl (npStd hist) lead) ∧
      isRejected (calculate_safety_stock hist lead sl) = false :=
  ⟨rfl, rfl⟩

/-- The demands recorded in a day's report are, SKU by SKU, the drawn
demands of the day. -/
theorem report_demand_map (u : String → ℚ) (s : GameState) :
    (process_daily_sales u s).2.sales.map (fun kv => kv.2.demand) =
      s.products.map (fun p => dailyDemandDraw p.daily_demand (u p.id)) := by
  simp [process_daily_sales, sellProduct, Function.comp]

/-- C3, counterexample.  On day 1 of the seeded session, with uniform draw
`U = 1.29` for every SKU, the demand drawn for the WATER SKU (base demand 30)
is `int(30 * 1.29) = 38` — Python's `int` truncates — while the claimed
formula `max(1, round(30 * 1.29))` yields `39`.  The claim is false on this
input. -/
theorem C3_counterexample :
    ((process_daily_sales (fun _ => 129 / 100) initGameState).2.sales.map
        (fun kv => kv.2.demand)).head? = some 38 ∧
      specDemandDraw 30 (129 / 100) = 39 ∧ (38 : ℕ) ≠ 39 := by
  refine ⟨?_, ?_, by decide⟩
  · rw [report_demand_map]
    norm_num [initGameState, create_products, dailyDemandDraw, pyTrunc]
    decide
  · rw [specDemandDraw]
    norm_num [round_eq]
    decide

/-- C3, amended.  On every simulated day and for every SKU, the drawn actual
demand equals `max(1, int(base_daily_demand * U))` where `int` truncates
toward zero (not `round`), with `U` the SKU's uniform draw for the day; in
particular, drawn demand is never zero. -/
theorem C3_demand_truncation (s : GameState) (u : String → ℚ) :
    ((process_daily_sales u s).2.sales.map (fun kv => kv.2.demand) =
        s.products.map (fun p => max 1 (pyTrunc ((p.daily_demand : ℚ) * u p.id)).toNat)) ∧
      ∀ base v, 1 ≤ dailyDemandDraw base v := by
  constructor
  · simp [process_daily_sales, sellProduct, dailyDemandDraw, Function.comp]
  · intro base v
    exact le_max_left _ _

/-- C4.  The reorder-point computation returns
`forecast_mean * lead_time + safety_stock`: in `render_step_5_calculate` the
forecast is the player's prediction when one was entered and the system's
historical mean otherwise, and in `calculate_reorder_point` it is the
historical mean (the system-supplied forecast). -/
theorem C4_reorder_point_formula :
    (∀ (forecast : ℝ) (hist : List ℕ) (lead : ℕ) (ss_val : ℝ),
        step5_reorder_point (some forecast) hist lead ss_val =
          forecast * lead + ss_val) ∧
      (∀ (hist : List ℕ) (lead : ℕ) (ss_val : ℝ),
        step5_reorder_point none hist lead ss_val =
          ((npMean hist : ℚ) : ℝ) * lead + ss_val) ∧
      (∀ (hist : List ℕ) (lead : ℕ) (ss_val : ℝ),
        calculate_reorder_point hist lead ss_val =
          ((npMean hist : ℚ) : ℝ) * lead + ss_val) :=
  ⟨fun _ _ _ _ => rfl, fun _ _ _ => rfl, fun _ _ _ => rfl⟩

/-- C7.  The reorder decision is non-strict: `should_reorder` holds exactly
when current stock is at most the reorder point; in particular it holds when
stock equals the reorder point, and fails when the reorder point is one below
the stock (i.e. stock is `reorder_point + 1`). -/
theorem C7_should_reorder_boundary :
    (∀ (p : SimpleProduct) (rop : ℝ),
        should_reorder p rop ↔ (p.current_stock : ℝ) ≤ rop) ∧
      (∀ p : SimpleProduct, should_reorder p (p.current_stock : ℝ)) ∧
      (∀ p : SimpleProduct, ¬ should_reorder p ((p.current_stock : ℝ) - 1)) := by
  refine ⟨fun p rop => Iff.rfl, fun p => le_refl _, fun p => ?_⟩
  rw [should_reorder]
  intro h
  linarith

/-- Summing a pointwise difference over a list. -/
theorem list_sum_map_sub {α : Type _} (l : List α) (f g : α → ℚ) :
    (l.map (fun x => f x - g x)).sum = (l.map f).sum - (l.map g).sum := by
  induction l with
  | nil => simp
  | cons a l ih =>
    simp only [List.map_cons, List.sum_cons, ih]
    ring

/-- The day's score delta, as recorded in the report. -/
theorem score_today_nonneg (u : String → ℚ) (s : GameState) :
    0 ≤ ((process_daily_sales u s).2).score_today := by
  rw [process_daily_sales]
  refine add_nonneg ?_ ?_
  · split
    next h => exact mul_nonneg h.le (by norm_num)
    next => exact le_rfl
  · split
    next => norm_num
    next => exact le_rfl

/-- One simulated day adds exactly the day's score delta to the cumulative
score. -/
theorem score_step (u : String → ℚ) (s : GameState) :
    ((process_daily_sales u s).1).score =
      s.score + ((process_daily_sales u s).2).score_today := rfl

/-- C8.  The cumulative score never decreases: the daily score delta (10% of
positive profit plus the all-or-nothing no-stockout bonus) is non-negative,
each simulated day only adds it, and over any sequence of simulated days and
step-1 quiz submissions the score is monotone. -/
theorem C8_score_never_decreases :
    (∀ (u : String → ℚ) (s : GameState),
        0 ≤ ((process_daily_sales u s).2).score_today) ∧
      (∀ (s : GameState) (u : String → ℚ),
        s.score ≤ ((process_daily_sales u s).1).score) ∧
      (∀ (evs : List GameEvent) (s : GameState),
        s.score ≤ (applyEvents evs s).score) := by
  have h2 : ∀ (s : GameState) (u : String → ℚ),
      s.score ≤ ((process_daily_sales u s).1).score := by
    intro s u
    rw [score_step]
    exact le_add_of_nonneg_right (score_today_nonneg u s)
  refine ⟨score_today_nonneg, h2, ?_⟩
  intro evs
  induction evs with
  | nil => intro s; exact le_rfl
  | cons e evs ih =>
    intro s
    show s.score ≤ (applyEvents evs (applyEvent e s)).score
    refine le_trans ?_ (ih (applyEvent e s))
    cases e with
    | simDay u => exact h2 s u
    | quiz c =>
      show s.score ≤ (quizStep1Bonus c s).score
      rw [quizStep1Bonus]
      split
      · show s.score ≤ s.score + 10
        linarith
      · exact le_rfl

/-- C9.  When every product's unit price is at least its unit cost, one run
of the daily simulation cannot decrease cash: the day's profit is the sum
over SKUs of fulfilled sales times the unit margin, which is
non-negative. -/
theorem C9_daily_profit_nonneg (s : GameState) (u : String → ℚ)
    (h : ∀ p ∈ s.products, p.cost ≤ p.price) :
    ((process_daily_sales u s).2).profit =
        (s.products.map (fun p =>
          ((min (dailyDemandDraw p.daily_demand (u p.id)) p.current_stock : ℕ) : ℚ) *
            (p.price - p.cost))).sum ∧
      s.cash ≤ ((process_daily_sales u s).1).cash := by
  have hprofit : ((process_daily_sales u s).2).profit =
      (s.products.map (fun p =>
        ((min (dailyDemandDraw p.daily_demand (u p.id)) p.current_stock : ℕ) : ℚ) *
          (p.price - p.cost))).sum := by
    rw [process_daily_sales]
    dsimp only
    rw [List.map_map, List.map_map, ← list_sum_map_sub]
    congr 1
    refine List.map_congr_left (fun p _ => ?_)
    dsimp [sellProduct, Function.comp]
    ring
  have hsum : 0 ≤ ((process_daily_sales u s).2).profit := by
    rw [hprofit]
    refine List.sum_nonneg ?_
    intro x hx
    rcases List.mem_map.mp hx with ⟨p, hp, rfl⟩
    have := h p hp
    have hle : (0 : ℚ) ≤ p.price - p.cost := by linarith
    positivity
  refine ⟨hprofit, ?_⟩
  have hcash : ((process_daily_sales u s).1).cash =
      s.cash + ((process_daily_sales u s).2).profit := rfl
  rw [hcash]
  exact le_add_of_nonneg_right hsum

/-- C9, witness: on the seeded session (all three catalog products have
price at least cost) with all uniform draws equal to `1`, the day does not
decrease cash. -/
theorem C9_witness :
    initGameState.cash ≤ ((process_daily_sales (fun _ => 1) initGameState).1).cash :=
  (C9_daily_profit_nonneg initGameState (fun _ => 1)
    (by intro p hp; fin_cases hp <;> norm_num)).2

/-- Dict lookup on a cons cell. -/
theorem lookupPending_cons (a : String × PendingOrder) (l : List (String × PendingOrder))
    (k : String) :
    lookupPending (a :: l) k = if a.1 = k then some a.2 else lookupPending l k := by
  by_cases h : a.1 = k
  · rw [lookupPending, List.find?_cons_of_pos _ (by simpa using h), if_pos h]
    rfl
  · rw [lookupPending, List.find?_cons_of_neg _ (by simpa using h), if_neg h]
    rfl

/-- Replacing the `k`-entry in place makes the lookup of `k` find the new
value, provided some entry had key `k`. -/
theorem lookup_map_replace (k : String) (v : PendingOrder) :
    ∀ l : List (String × PendingOrder), l.any (fun kv => kv.1 == k) = true →
      lookupPending (l.map (fun kv => if kv.1 = k then (k, v) else kv)) k = some v := by
  intro l
  induction l with
  | nil => intro h; simp at h
  | cons a l ih =>
    intro h
    rw [List.map_cons]
    by_cases ha : a.1 = k
    · rw [if_pos ha, lookupPending_cons]
      simp
    · rw [if_neg ha, lookupPending_cons, if_neg ha]
      apply ih
      rw [List.any_cons, beq_eq_false_iff_ne.mpr ha, Bool.false_or] at h
      exact h

/-- Appending a fresh `(k, v)` entry makes the lookup of `k` find it when no
earlier entry had key `k`. -/
theorem lookup_append_single (k : String) (v : PendingOrder) :
    ∀ l : List (String × PendingOrder), l.any (fun kv => kv.1 == k) = false →
      lookupPending (l ++ [(k, v)]) k = some v := by
  intro l
  induction l with
  | nil =>
    intro _
    rw [List.nil_append, lookupPending_cons]
    simp
  | cons a l ih =>
    intro h
    rw [List.any_cons, Bool.or_eq_false_iff] at h
    rw [List.cons_append, lookupPending_cons, if_neg (beq_eq_false_iff_ne.mp h.1)]
    exact ih h.2

/-- After `d[k] = v`, looking up `k` yields `v`. -/
theorem lookupPending_dictInsert_self (l : List (String × PendingOrder))
    (k : String) (v : PendingOrder) :
    lookupPending (dictInsert l k v) k = some v := by
  rw [dictInsert]
  cases h : l.any (fun kv => kv.1 == k) with
  | true =>
    rw [if_pos rfl]
    exact lookup_map_replace k v l h
  | false =>
    rw [if_neg Bool.false_ne_true]
    exact lookup_append_single k v l h

/-- The in-place replacement of the `q`-entry leaves the lookup of a
different key `k` unchanged. -/
theorem lookup_map_replace_ne (k q : String) (v : PendingOrder) (hne : q ≠ k) :
    ∀ l : List (String × PendingOrder),
      lookupPending (l.map (fun kv => if kv.1 = q then (q, v) else kv)) k =
        lookupPending l k := by
  intro l
  induction l with
  | nil => rfl
  | cons a l ih =>
    rw [List.map_cons]
    by_cases ha : a.1 = q
    · rw [if_pos ha, lookupPending_cons, lookupPending_cons, if_neg hne,
        if_neg (fun hk => hne (ha.symm.trans hk))]
      exact ih
    · rw [if_neg ha, lookupPending_cons, lookupPending_cons]
      by_cases hk : a.1 = k
      · rw [if_pos hk, if_pos hk]
      · rw [if_neg hk, if_neg hk]
        exact ih

/-- Appending a `(q, v)` entry leaves the lookup of a different key `k`
unchanged. -/
theorem lookup_append_single_ne (k q : String) (v : PendingOrder) (hne : q ≠ k) :
    ∀ l : List (String × PendingOrder),
      lookupPending (l ++ [(q, v)]) k = lookupPending l k := by
  intro l
  induction l with
  | nil =>
    rw [List.nil_append, lookupPending_cons, if_neg hne]
  | cons a l ih =>
    rw [List.cons_append, lookupPending_cons, lookupPending_cons]
    by_cases hk : a.1 = k
    · rw [if_pos hk, if_pos hk]
    · rw [if_neg hk, if_neg hk]
      exact ih

/-- `d[q] = v` does not change the lookup of a different key `k`. -/
theorem lookupPending_dictInsert_ne (l : List (String × PendingOrder))
    (k q : String) (v : PendingOrder) (hne : q ≠ k) :
    lookupPending (dictInsert l q v) k = lookupPending l k := by
  rw [dictInsert]
  cases h : l.any (fun kv => kv.1 == q) with
  | true =>
    rw [if_pos rfl]
    exact lookup_map_replace_ne k q v hne l
  | false =>
    rw [if_neg Bool.false_ne_true]
    exact lookup_append_single_ne k q v hne l

/-- Every entry of `dictInsert l k v` whose key is `k` carries the new
value: the overwritten value is gone from the dict. -/
theorem dictInsert_key_eq (l : List (String × PendingOrder)) (k : String)
    (v : PendingOrder) :
    ∀ kv ∈ dictInsert l k v, kv.1 = k → kv = (k, v) := by
  intro kv hkv hk
  rw [dictInsert] at hkv
  cases h : l.any (fun kv => kv.1 == k) with
  | true =>
    rw [h, if_pos rfl] at hkv
    rcases List.mem_map.mp hkv with ⟨a, _, rfl⟩
    by_cases haq : a.1 = k
    · rw [if_pos haq]
    · rw [if_neg haq] at hk ⊢
      exact absurd hk haq
  | false =>
    rw [h, if_neg Bool.false_ne_true] at hkv
    rcases List.mem_append.mp hkv with hin | hin
    · exfalso
      have hall := List.any_eq_false.mp h
      have hne := hall kv hin
      simp only [beq_iff_eq] at hne
      exact hne hk
    · simpa using hin

/-- Folding the commit loop over orders whose keys avoid `k` leaves the
lookup of `k` unchanged. -/
theorem foldl_submitStep_lookup_of_not_mem (ps : List SimpleProduct) :
    ∀ (orders : List (String × ℕ)) (pend : List (String × PendingOrder)) (k : String),
      k ∉ orders.map Prod.fst →
      lookupPending (orders.foldl (submitStep ps) pend) k = lookupPending pend k := by
  intro orders
  induction orders with
  | nil => intro pend k _; rfl
  | cons kq rest ih =>
    intro pend k hk
    rw [List.map_cons, List.mem_cons, not_or] at hk
    rw [List.foldl_cons, ih _ _ hk.2]
    rcases hfp : findProduct ps kq.1 with _ | p
    · by_cases hq2 : 0 < kq.2
      · simp only [submitStep, if_pos hq2, hfp]
      · simp only [submitStep, if_neg hq2]
    · by_cases hq2 : 0 < kq.2
      · simp only [submitStep, if_pos hq2, hfp]
        exact lookupPending_dictInsert_ne _ _ _ _ (fun h => hk.1 h.symm)
      · simp only [submitStep, if_neg hq2]

/-- After folding the commit loop over a batch with pairwise distinct keys,
each positive-quantity order is present in the dict. -/
theorem foldl_submitStep_lookup (ps : List SimpleProduct) :
    ∀ (orders : List (String × ℕ)) (pend : List (String × PendingOrder)),
      (orders.map Prod.fst).Nodup →
      ∀ kq ∈ orders, 0 < kq.2 → ∀ p, findProduct ps kq.1 = some p →
        lookupPending (orders.foldl (submitStep ps) pend) kq.1 =
          some { quantity := kq.2
                 days_remaining := (p.lead_time : ℤ)
                 cost := (kq.2 : ℚ) * p.cost } := by
  intro orders
  induction orders with
  | nil =>
    intro pend _ kq h
    exact absurd h (List.not_mem_nil kq)
  | cons a rest ih =>
    intro pend hnd kq hmem hq p hp
    rw [List.map_cons, List.nodup_cons] at hnd
    rw [List.foldl_cons]
    rcases List.mem_cons.mp hmem with rfl | hmem'
    · rw [foldl_submitStep_lookup_of_not_mem ps rest _ _ hnd.1]
      simp only [submitStep, if_pos hq, hp]
      exact lookupPending_dictInsert_self _ _ _
    · exact ih _ hnd.2 kq hmem' hq p hp

/-- If the batch's total cost was computed, every SKU in the batch exists in
the catalog. -/
theorem totalOrderCost_find (ps : List SimpleProduct) :
    ∀ (orders : List (String × ℕ)) (t : ℚ), totalOrderCost ps orders = some t →
      ∀ kq ∈ orders, ∃ p, findProduct ps kq.1 = some p := by
  intro orders
  induction orders with
  | nil =>
    intro t _ kq h
    exact absurd h (List.not_mem_nil kq)
  | cons a rest ih =>
    intro t ht kq hmem
    obtain ⟨k, q⟩ := a
    rw [totalOrderCost] at ht
    rcases hfp : findProduct ps k with _ | p
    · rw [hfp] at ht
      simp at ht
    · rcases hrest : totalOrderCost ps rest with _ | c
      · rw [hfp, hrest] at ht
        simp at ht
      · rcases List.mem_cons.mp hmem with rfl | hmem'
        · exact ⟨p, hfp⟩
        · exact ih c hrest kq hmem'

/-- C1.  Order submission is an atomic batch: when the batch's total cost
(over positive quantities) exceeds available cash, the submission is the
insufficient-funds rejection — the pure embedding returns no successor state,
so cash and pending orders are the unchanged `s` — and when the total is
within available cash, the submission succeeds, debits cash by exactly the
total, and commits every positive-quantity order of the batch. -/
theorem C1_batch_atomic (s : GameState) (orders : List (String × ℕ)) (total : ℚ)
    (htot : totalOrderCost s.products orders = some total)
    (hkeys : (orders.map Prod.fst).Nodup) :
    (s.cash < total →
        submit_orders orders s = Except.error SubmitError.insufficientFunds) ∧
      (total ≤ s.cash → ∃ s1,
        submit_orders orders s = Except.ok s1 ∧
        s1.cash = s.cash - total ∧
        s1.products = s.products ∧
        ∀ kq ∈ orders, 0 < kq.2 → ∃ p,
          findProduct s.products kq.1 = some p ∧
          lookupPending s1.pending_orders kq.1 =
            some { quantity := kq.2
                   days_remaining := (p.lead_time : ℤ)
                   cost := (kq.2 : ℚ) * p.cost }) := by
  constructor
  · intro hlt
    simp only [submit_orders, htot]
    rw [if_neg (by intro h0; linarith)]
  · intro hle
    simp only [submit_orders, htot]
    rw [if_pos (by linarith : (0 : ℚ) ≤ s.cash - total)]
    refine ⟨_, rfl, rfl, rfl, ?_⟩
    intro kq hmem hq
    obtain ⟨p, hp⟩ := totalOrderCost_find s.products orders total htot kq hmem
    exact ⟨p, hp, foldl_submitStep_lookup s.products orders s.pending_orders hkeys
      kq hmem hq p hp⟩

/-- C1, witness: the spec's scenario — a batch of 50 units at unit cost 1
with only 40 cash — is rejected with the insufficient-funds error. -/
theorem C1_witness :
    submit_orders [((r"WATER"), 50)] { initGameState with cash := 40 } =
      Except.error SubmitError.insufficientFunds := by
  refine (C1_batch_atomic { initGameState with cash := 40 } [((r"WATER"), 50)] 50
    ?_ ?_).1 ?_
  · norm_num [totalOrderCost, findProduct, initGameState, create_products]
  · simp
  · norm_num [initGameState]

/-- C10.  Submitting an order for a SKU that already has a pending order
silently replaces it in the pending-orders dict: the successor state's entry
for the SKU is the new order, no entry carrying the old order remains (so
the old quantity can never be credited on arrival), no refund of the old
order's already-debited cost is applied, and the new order's full cost is
debited again. -/
theorem C10_pending_order_replaced (s : GameState) (k : String) (q : ℕ)
    (oldOrder : PendingOrder) (p : SimpleProduct)
    (_hold : lookupPending s.pending_orders k = some oldOrder)
    (hp : findProduct s.products k = some p)
    (hq : 0 < q) (hcash : (q : ℚ) * p.cost ≤ s.cash) :
    ∃ s1, submit_orders [(k, q)] s = Except.ok s1 ∧
      s1.pending_orders = dictInsert s.pending_orders k
          { quantity := q, days_remaining := (p.lead_time : ℤ), cost := (q : ℚ) * p.cost } ∧
      lookupPending s1.pending_orders k =
        some { quantity := q, days_remaining := (p.lead_time : ℤ), cost := (q : ℚ) * p.cost } ∧
      (∀ kv ∈ s1.pending_orders, kv.1 = k →
        kv.2 = { quantity := q, days_remaining := (p.lead_time : ℤ), cost := (q : ℚ) * p.cost }) ∧
      s1.cash = s.cash - (q : ℚ) * p.cost := by
  have htot : totalOrderCost s.products [(k, q)] = some ((q : ℚ) * p.cost) := by
    simp only [totalOrderCost, hp]
    rw [if_pos hq, add_zero]
  simp only [submit_orders, htot]
  rw [if_pos (by linarith : (0 : ℚ) ≤ s.cash - (q : ℚ) * p.cost)]
  have hpend : [(k, q)].foldl (submitStep s.products) s.pending_orders =
      dictInsert s.pending_orders k
        { quantity := q, days_remaining := (p.lead_time : ℤ), cost := (q : ℚ) * p.cost } := by
    rw [List.foldl_cons, List.foldl_nil]
    simp only [submitStep, if_pos hq, hp]
  refine ⟨_, rfl, hpend, ?_, ?_, rfl⟩
  · rw [hpend]
    exact lookupPending_dictInsert_self _ _ _
  · intro kv hkv hk
    have := dictInsert_key_eq s.pending_orders k
      { quantity := q, days_remaining := (p.lead_time : ℤ), cost := (q : ℚ) * p.cost }
      kv (hpend ▸ hkv) hk
    rw [this]

/-- C10, witness: with a 10-unit WATER order already pending, submitting a
20-unit WATER order succeeds and its entry replaces the old one. -/
theorem C10_witness :
    ∃ s1, submit_orders [((r"WATER"), 20)]
        { initGameState with pending_orders := [((r"WATER"), ⟨10, 3, 10⟩)] } =
      Except.ok s1 := by
  obtain ⟨s1, h1, -⟩ := C10_pending_order_replaced
    { initGameState with pending_orders := [((r"WATER"), ⟨10, 3, 10⟩)] }
    (r"WATER") 20 ⟨10, 3, 10⟩
    { id := (r"WATER"), name := (r"矿泉水"), icon := (r"💧"),
      price := 3, cost := 1, current_stock := 120,
      daily_demand := 30, lead_time := 3, order_interval := 3 }
    (by norm_num [lookupPending])
    (by norm_num [findProduct, initGameState, create_products])
    (by decide)
    (by norm_num [initGameState])
  exact ⟨s1, h1⟩

/-- The on-hand stock of the SKU with id `k` (0 when the SKU is absent). -/
def stockOf (ps : List SimpleProduct) (k : String) : ℕ :=
  ((ps.find? (fun p => p.id == k)).map (fun p => p.current_stock)).getD 0

/-- The base daily demand of the SKU with id `k` (0 when the SKU is
absent). -/
def baseOf (ps : List SimpleProduct) (k : String) : ℕ :=
  ((ps.find? (fun p => p.id == k)).map (fun p => p.daily_demand)).getD 0

/-- The stock trajectory of one SKU under daily sales alone: each day the
drawn demand is fulfilled up to the available stock (truncated
subtraction). -/
def salesOnlyStock (base : ℕ) (us : ℕ → String → ℚ) (k : String) :
    ℕ → ℕ → ℕ
  | 0, stock => stock
  | n + 1, stock =>
    salesOnlyStock base (fun i => us (i + 1)) k n
      (stock - dailyDemandDraw base (us 0 k))

/-- The total quantity that the order-arrival loop credits to SKU `k` today:
the quantities of the `k`-keyed pending orders whose decremented
days-remaining drop to `<= 0`. -/
def arrivals : List (String × PendingOrder) → String → ℕ
  | [], _ => 0
  | (q, o) :: rest, k =>
    (if q = k ∧ o.days_remaining - 1 ≤ 0 then o.quantity else 0) + arrivals rest k

/-- `find?` by id commutes with an id-preserving transformation of the
catalog. -/
theorem find?_map_preserve (f : SimpleProduct → SimpleProduct)
    (hid : ∀ p, (f p).id = p.id) (ps : List SimpleProduct) (k : String) :
    (ps.map f).find? (fun p => p.id == k) =
      (ps.find? (fun p => p.id == k)).map f := by
  rw [List.find?_map]
  have hpred : ((fun p => p.id == k) ∘ f) = (fun p : SimpleProduct => p.id == k) := by
    funext p
    simp only [Function.comp_apply, hid]
  rw [hpred]

/-- Truncated subtraction absorbs the `min` with the subtrahend. -/
theorem nat_sub_min (a b : ℕ) : a - min b a = a - b := by
  rw [Nat.min_def]
  split <;> omega

/-- Selling a day of demand turns each SKU's stock into
`stock - demand` (truncated). -/
theorem stockOf_map_sell (u : String → ℚ) (ps : List SimpleProduct) (k : String) :
    stockOf (ps.map (fun p => (sellProduct u p).1)) k =
      stockOf ps k - dailyDemandDraw (baseOf ps k) (u k) := by
  simp only [stockOf, baseOf]
  rw [find?_map_preserve (fun p => (sellProduct u p).1) (fun p => rfl)]
  cases hf : ps.find? (fun p => p.id == k) with
  | none => simp
  | some p =>
    have hid : p.id = k := by simpa using List.find?_some hf
    simp only [Option.map_some', Option.getD_some, sellProduct]
    rw [hid, nat_sub_min]

/-- `sellProduct` preserves the base daily demand. -/
theorem baseOf_map_sell (u : String → ℚ) (ps : List SimpleProduct) (k : String) :
    baseOf (ps.map (fun p => (sellProduct u p).1)) k = baseOf ps k := by
  simp only [baseOf]
  rw [find?_map_preserve (fun p => (sellProduct u p).1) (fun p => rfl)]
  cases ps.find? (fun p => p.id == k) <;> rfl

/-- `sellProduct` preserves presence of a SKU in the catalog. -/
theorem isSome_map_sell (u : String → ℚ) (ps : List SimpleProduct) (k : String) :
    ((ps.map (fun p => (sellProduct u p).1)).find? (fun p => p.id == k)).isSome =
      (ps.find? (fun p => p.id == k)).isSome := by
  rw [find?_map_preserve (fun p => (sellProduct u p).1) (fun p => rfl)]
  cases ps.find? (fun p => p.id == k) <;> rfl

/-- Crediting SKU `k` adds the quantity to its stock. -/
theorem stockOf_creditStock_self (ps : List SimpleProduct) (k : String) (q : ℕ)
    (hmem : (ps.find? (fun p => p.id == k)).isSome = true) :
    stockOf (creditStock ps k q) k = stockOf ps k + q := by
  simp only [creditStock, stockOf]
  rw [find?_map_preserve
    (fun p => if p.id = k then { p with current_stock := p.current_stock + q } else p)
    (fun p => by dsimp only; split <;> rfl)]
  cases hf : ps.find? (fun p => p.id == k) with
  | none =>
    rw [hf] at hmem
    simp at hmem
  | some p =>
    have hid : p.id = k := by simpa using List.find?_some hf
    simp only [Option.map_some', Option.getD_some]
    rw [if_pos hid]

/-- Crediting a different SKU leaves the stock of `k` unchanged. -/
theorem stockOf_creditStock_ne (ps : List SimpleProduct) (kc k : String) (q : ℕ)
    (hne : kc ≠ k) :
    stockOf (creditStock ps kc q) k = stockOf ps k := by
  simp only [creditStock, stockOf]
  rw [find?_map_preserve
    (fun p => if p.id = kc then { p with current_stock := p.current_stock + q } else p)
    (fun p => by dsimp only; split <;> rfl)]
  cases hf : ps.find? (fun p => p.id == k) with
  | none => rfl
  | some p =>
    have hid : p.id = k := by simpa using List.find?_some hf
    simp only [Option.map_some', Option.getD_some]
    rw [if_neg (fun h => hne ((hid ▸ h : k = kc)).symm)]

/-- Crediting preserves the base daily demand. -/
theorem baseOf_creditStock (ps : List SimpleProduct) (kc k : String) (q : ℕ) :
    baseOf (creditStock ps kc q) k = baseOf ps k := by
  simp only [creditStock, baseOf]
  rw [find?_map_preserve
    (fun p => if p.id = kc then { p with current_stock := p.current_stock + q } else p)
    (fun p => by dsimp only; split <;> rfl)]
  cases ps.find? (fun p => p.id == k) with
  | none => rfl
  | some p =>
    simp only [Option.map_some', Option.getD_some]
    split <;> rfl

/-- Crediting preserves presence of a SKU in the catalog. -/
theorem isSome_creditStock (ps : List SimpleProduct) (kc k : String) (q : ℕ) :
    ((creditStock ps kc q).find? (fun p => p.id == k)).isSome =
      (ps.find? (fun p => p.id == k)).isSome := by
  simp only [creditStock]
  rw [find?_map_preserve
    (fun p => if p.id = kc then { p with current_stock := p.current_stock + q } else p)
    (fun p => by dsimp only; split <;> rfl)]
  cases ps.find? (fun p => p.id == k) <;> rfl

/-- No `k`-keyed entry means no arrivals for `k`. -/
theorem arrivals_eq_zero_of_not_mem (k : String) :
    ∀ pend : List (String × PendingOrder), k ∉ pend.map Prod.fst →
      arrivals pend k = 0 := by
  intro pend
  induction pend with
  | nil => intro _; rfl
  | cons a rest ih =>
    intro hk
    obtain ⟨ka, oa⟩ := a
    rw [List.map_cons, List.mem_cons, not_or] at hk
    rw [arrivals, if_neg (fun hc => hk.1 hc.1.symm), ih hk.2]

/-- With pairwise-distinct keys, the day's arrivals for `k` are exactly the
unique `k`-entry's quantity when its countdown expires, and zero
otherwise. -/
theorem arrivals_of_lookup (k : String) :
    ∀ pend : List (String × PendingOrder), (pend.map Prod.fst).Nodup →
      ∀ o, lookupPending pend k = some o →
        arrivals pend k = if o.days_remaining - 1 ≤ 0 then o.quantity else 0 := by
  intro pend
  induction pend with
  | nil =>
    intro _ o h
    cases h
  | cons a rest ih =>
    intro hnd o h
    obtain ⟨ka, oa⟩ := a
    rw [List.map_cons, List.nodup_cons] at hnd
    rw [lookupPending_cons] at h
    rw [arrivals]
    by_cases hk : ka = k
    · rw [if_pos hk] at h
      cases h
      rw [arrivals_eq_zero_of_not_mem k rest (hk ▸ hnd.1), add_zero]
      by_cases hd : oa.days_remaining - 1 ≤ 0
      · rw [if_pos ⟨hk, hd⟩, if_pos hd]
      · rw [if_neg (fun hc => hd hc.2), if_neg hd]
    · rw [if_neg hk] at h
      rw [if_neg (fun hc => hk hc.1), zero_add]
      exact ih hnd.2 o h

/-- The products side of the order-arrival loop: each SKU's stock gains
exactly its arrivals. -/
theorem advanceOrders_stockOf (k : String) :
    ∀ (pend : List (String × PendingOrder)) (ps : List SimpleProduct),
      (ps.find? (fun p => p.id == k)).isSome = true →
      stockOf (advanceOrders pend ps).2 k = stockOf ps k + arrivals pend k := by
  intro pend
  induction pend with
  | nil =>
    intro ps _
    rfl
  | cons a rest ih =>
    intro ps hmem
    obtain ⟨ka, oa⟩ := a
    simp only [advanceOrders]
    by_cases hd : oa.days_remaining - 1 ≤ 0
    · rw [if_pos hd]
      rw [ih (creditStock ps ka oa.quantity) (by rw [isSome_creditStock]; exact hmem)]
      rw [arrivals]
      by_cases hka : ka = k
      · subst hka
        rw [stockOf_creditStock_self ps ka oa.quantity hmem, if_pos ⟨rfl, hd⟩]
        omega
      · rw [stockOf_creditStock_ne ps ka k oa.quantity hka, if_neg (fun hc => hka hc.1)]
        omega
    · rw [if_neg hd]
      dsimp only
      rw [ih ps hmem, arrivals, if_neg (fun hc => hd hc.2)]
      omega

/-- The order-arrival loop introduces no `k`-entry when none was there. -/
theorem advanceOrders_lookup_not_mem (k : String) :
    ∀ (pend : List (String × PendingOrder)) (ps : List SimpleProduct),
      k ∉ pend.map Prod.fst →
      lookupPending (advanceOrders pend ps).1 k = none := by
  intro pend
  induction pend with
  | nil => intro ps _; rfl
  | cons a rest ih =>
    intro ps hk
    obtain ⟨ka, oa⟩ := a
    rw [List.map_cons, List.mem_cons, not_or] at hk
    simp only [advanceOrders]
    by_cases hd : oa.days_remaining - 1 ≤ 0
    · rw [if_pos hd]
      exact ih _ hk.2
    · rw [if_neg hd]
      dsimp only
      rw [lookupPending_cons, if_neg (fun hc => hk.1 hc.symm)]
      exact ih _ hk.2

/-- The pending side of the order-arrival loop: the unique `k`-entry is
deleted when its countdown expires, and kept with the decremented countdown
otherwise. -/
theorem advanceOrders_lookup (k : String) :
    ∀ (pend : List (String × PendingOrder)) (ps : List SimpleProduct),
      (pend.map Prod.fst).Nodup →
      ∀ o, lookupPending pend k = some o →
        lookupPending (advanceOrders pend ps).1 k =
          if o.days_remaining - 1 ≤ 0 then none
          else some { o with days_remaining := o.days_remaining - 1 } := by
  intro pend
  induction pend with
  | nil =>
    intro ps _ o h
    cases h
  | cons a rest ih =>
    intro ps hnd o h
    obtain ⟨ka, oa⟩ := a
    rw [List.map_cons, List.nodup_cons] at hnd
    rw [lookupPending_cons] at h
    simp only [advanceOrders]
    by_cases hk : ka = k
    · rw [if_pos hk] at h
      cases h
      by_cases hd : oa.days_remaining - 1 ≤ 0
      · rw [if_pos hd, if_pos hd]
        exact advanceOrders_lookup_not_mem k rest _ (hk ▸ hnd.1)
      · rw [if_neg hd, if_neg hd]
        dsimp only
        rw [lookupPending_cons, if_pos hk]
    · rw [if_neg hk] at h
      by_cases hd : oa.days_remaining - 1 ≤ 0
      · rw [if_pos hd]
        exact ih _ hnd.2 o h
      · rw [if_neg hd]
        dsimp only
        rw [lookupPending_cons, if_neg hk]
        exact ih _ hnd.2 o h

/-- The order-arrival loop only deletes or updates entries in place: its keys
form a sublist of the original keys. -/
theorem advanceOrders_keys_sublist :
    ∀ (pend : List (String × PendingOrder)) (ps : List SimpleProduct),
      ((advanceOrders pend ps).1.map Prod.fst).Sublist (pend.map Prod.fst) := by
  intro pend
  induction pend with
  | nil => intro ps; exact List.Sublist.refl _
  | cons a rest ih =>
    intro ps
    obtain ⟨ka, oa⟩ := a
    simp only [advanceOrders]
    by_cases hd : oa.days_remaining - 1 ≤ 0
    · rw [if_pos hd]
      exact List.Sublist.cons _ (ih _)
    · rw [if_neg hd]
      dsimp only
      rw [List.map_cons, List.map_cons]
      exact List.Sublist.cons₂ _ (ih _)

/-- The order-arrival loop preserves each SKU's base daily demand. -/
theorem advanceOrders_baseOf (k : String) :
    ∀ (pend : List (String × PendingOrder)) (ps : List SimpleProduct),
      baseOf (advanceOrders pend ps).2 k = baseOf ps k := by
  intro pend
  induction pend with
  | nil => intro ps; rfl
  | cons a rest ih =>
    intro ps
    obtain ⟨ka, oa⟩ := a
    simp only [advanceOrders]
    by_cases hd : oa.days_remaining - 1 ≤ 0
    · rw [if_pos hd, ih _, baseOf_creditStock]
    · rw [if_neg hd]
      exact ih ps

/-- The order-arrival loop preserves presence of each SKU in the catalog. -/
theorem advanceOrders_isSome (k : String) :
    ∀ (pend : List (String × PendingOrder)) (ps : List SimpleProduct),
      ((advanceOrders pend ps).2.find? (fun p => p.id == k)).isSome =
        (ps.find? (fun p => p.id == k)).isSome := by
  intro pend
  induction pend with
  | nil => intro ps; rfl
  | cons a rest ih =>
    intro ps
    obtain ⟨ka, oa⟩ := a
    simp only [advanceOrders]
    by_cases hd : oa.days_remaining - 1 ≤ 0
    · rw [if_pos hd, ih _, isSome_creditStock]
    · rw [if_neg hd]
      exact ih ps

/-- The products after one simulated day: the day's sales applied to every
SKU, then the order-arrival loop. -/
theorem day_products_eq (u : String → ℚ) (s : GameState) :
    (process_daily_sales u s).1.products =
      (advanceOrders s.pending_orders
        (s.products.map (fun p => (sellProduct u p).1))).2 := by
  simp only [process_daily_sales, List.map_map]
  rfl

/-- The pending orders after one simulated day. -/
theorem day_pending_eq (u : String → ℚ) (s : GameState) :
    (process_daily_sales u s).1.pending_orders =
      (advanceOrders s.pending_orders
        (s.products.map (fun p => (sellProduct u p).1))).1 := by
  simp only [process_daily_sales, List.map_map]
  rfl

/-- One simulated day maps SKU `k`'s stock to
`stock - demand + arrivals`. -/
theorem day_stockOf (u : String → ℚ) (s : GameState) (k : String)
    (hmem : (s.products.find? (fun p => p.id == k)).isSome = true) :
    stockOf (process_daily_sales u s).1.products k =
      (stockOf s.products k - dailyDemandDraw (baseOf s.products k) (u k)) +
        arrivals s.pending_orders k := by
  rw [day_products_eq,
    advanceOrders_stockOf k _ _ (by rw [isSome_map_sell]; exact hmem),
    stockOf_map_sell]

/-- One simulated day preserves SKU `k`'s base daily demand. -/
theorem day_baseOf (u : String → ℚ) (s : GameState) (k : String) :
    baseOf (process_daily_sales u s).1.products k = baseOf s.products k := by
  rw [day_products_eq, advanceOrders_baseOf, baseOf_map_sell]

/-- One simulated day preserves presence of SKU `k` in the catalog. -/
theorem day_isSome (u : String → ℚ) (s : GameState) (k : String) :
    ((process_daily_sales u s).1.products.find? (fun p => p.id == k)).isSome =
      (s.products.find? (fun p => p.id == k)).isSome := by
  rw [day_products_eq, advanceOrders_isSome, isSome_map_sell]

/-- One simulated day preserves distinctness of pending-order keys. -/
theorem day_keys_nodup (u : String → ℚ) (s : GameState)
    (hnd : (s.pending_orders.map Prod.fst).Nodup) :
    ((process_daily_sales u s).1.pending_orders.map Prod.fst).Nodup := by
  rw [day_pending_eq]
  exact hnd.sublist (advanceOrders_keys_sublist s.pending_orders _)

/-- One simulated day deletes the `k`-order when its countdown expires and
keeps it with the decremented countdown otherwise. -/
theorem day_lookupPending (u : String → ℚ) (s : GameState) (k : String)
    (o : PendingOrder) (hnd : (s.pending_orders.map Prod.fst).Nodup)
    (h : lookupPending s.pending_orders k = some o) :
    lookupPending (process_daily_sales u s).1.pending_orders k =
      if o.days_remaining - 1 ≤ 0 then none
      else some { o with days_remaining := o.days_remaining - 1 } := by
  rw [day_pending_eq]
  exact advanceOrders_lookup k s.pending_orders _ hnd o h

/-- C5.  Order lifecycle: starting from any state whose pending dict has
pairwise-distinct keys and contains an order for catalog SKU `k` of quantity
`Q` and `L >= 1` days remaining, advancing exactly `L` days removes the
pending order and credits `Q` to the SKU's stock exactly once (on top of the
sales-only stock trajectory), while after only `L - 1` days the order is
still outstanding (one day remaining, quantity and cost basis untouched) and
none of `Q` has been added to stock. -/
theorem C5_order_lifecycle (L : ℕ) :
    ∀ (s : GameState) (us : ℕ → String → ℚ) (k : String) (Q : ℕ) (c : ℚ),
      (s.products.find? (fun p => p.id == k)).isSome = true →
      (s.pending_orders.map Prod.fst).Nodup →
      lookupPending s.pending_orders k = some ⟨Q, (L : ℤ), c⟩ →
      1 ≤ L →
      lookupPending (advanceDays us L s).pending_orders k = none ∧
      stockOf (advanceDays us L s).products k =
        salesOnlyStock (baseOf s.products k) us k L (stockOf s.products k) + Q ∧
      lookupPending (advanceDays us (L - 1) s).pending_orders k =
        some ⟨Q, (1 : ℤ), c⟩ ∧
      stockOf (advanceDays us (L - 1) s).products k =
        salesOnlyStock (baseOf s.products k) us k (L - 1) (stockOf s.products k) := by
  induction L with
  | zero =>
    intro s us k Q c _ _ _ hL
    exact absurd hL (by omega)
  | succ n ih =>
    intro s us k Q c hmem hnd horder hL
    cases n with
    | zero =>
      refine ⟨?_, ?_, ?_, ?_⟩
      · show lookupPending (process_daily_sales (us 0) s).1.pending_orders k = none
        rw [day_lookupPending (us 0) s k _ hnd horder]
        norm_num
      · show stockOf (process_daily_sales (us 0) s).1.products k = _
        rw [day_stockOf (us 0) s k hmem,
          arrivals_of_lookup k s.pending_orders hnd _ horder]
        norm_num [salesOnlyStock]
      · exact horder
      · rfl
    | succ m =>
      have hstep : advanceDays us (m + 2) s =
          advanceDays (fun i => us (i + 1)) (m + 1)
            (process_daily_sales (us 0) s).1 := rfl
      have hstep' : advanceDays us (m + 1) s =
          advanceDays (fun i => us (i + 1)) m
            (process_daily_sales (us 0) s).1 := rfl
      have horder' : lookupPending (process_daily_sales (us 0) s).1.pending_orders k =
          some ⟨Q, ((m + 1 : ℕ) : ℤ), c⟩ := by
        rw [day_lookupPending (us 0) s k _ hnd horder]
        rw [if_neg (by push_cast; omega)]
        have hdays : ((m + 2 : ℕ) : ℤ) - 1 = ((m + 1 : ℕ) : ℤ) := by
          push_cast
          omega
        rw [hdays]
      have harr : arrivals s.pending_orders k = 0 := by
        rw [arrivals_of_lookup k s.pending_orders hnd _ horder]
        rw [if_neg (by push_cast; omega)]
      have hstock : stockOf (process_daily_sales (us 0) s).1.products k =
          stockOf s.products k -
            dailyDemandDraw (baseOf s.products k) (us 0 k) := by
        rw [day_stockOf (us 0) s k hmem, harr, add_zero]
      have hbase : baseOf (process_daily_sales (us 0) s).1.products k =
          baseOf s.products k := day_baseOf (us 0) s k
      obtain ⟨ih1, ih2, ih3, ih4⟩ := ih (process_daily_sales (us 0) s).1
        (fun i => us (i + 1)) k Q c
        (by rw [day_isSome]; exact hmem)
        (day_keys_nodup (us 0) s hnd)
        horder'
        (by omega)
      refine ⟨?_, ?_, ?_, ?_⟩
      · rw [hstep]
        exact ih1
      · rw [hstep, ih2, hbase, hstock]
        rfl
      · show lookupPending (advanceDays us (m + 1) s).pending_orders k = _
        rw [hstep']
        simpa using ih3
      · show stockOf (advanceDays us (m + 1) s).products k = _
        rw [hstep']
        have := ih4
        simp only [Nat.add_sub_cancel] at this
        rw [this, hbase, hstock]
        rfl

/-- C5, witness: in the seeded session with a 40-unit WATER order two days
from arrival (and demand noise fixed at `1`), after one day the order is
still pending with one day remaining, and after two days it is gone and the
stock has received exactly 40 on top of the sales-only trajectory. -/
theorem C5_witness :
    lookupPending
        (advanceDays (fun _ _ => 1) 2
          { initGameState with
            pending_orders := [((r"WATER"), ⟨40, 2, 40⟩)] }).pending_orders
        (r"WATER") = none := by
  refine (C5_order_lifecycle 2
    { initGameState with pending_orders := [((r"WATER"), ⟨40, 2, 40⟩)] }
    (fun _ _ => 1) (r"WATER") 40 40 ?_ ?_ ?_ ?_).1
  · decide
  · simp
  · rfl
  · omega

open MeasureTheory ProbabilityTheory in
/-- The standard normal CDF is the normalized measure of the lower ray. -/
theorem Phi_eq_toReal (x : ℝ) :
    Phi x = (gaussianReal 0 1 (Set.Iic x)).toReal := by
  rw [Phi, cdf_eq_toReal]

open MeasureTheory ProbabilityTheory in
/-- The standard Gaussian measure of a nontrivial interval is positive (the
density is everywhere positive). -/
theorem gaussianReal_Ioc_pos (a b : ℝ) (hab : a < b) :
    0 < gaussianReal 0 1 (Set.Ioc a b) := by
  rw [gaussianReal_apply_eq_integral 0 (by norm_num) _]
  rw [ENNReal.ofReal_pos]
  refine (setIntegral_pos_iff_support_of_nonneg_ae ?_ ?_).mpr ?_
  · exact Filter.Eventually.of_forall (fun x => gaussianPDFReal_nonneg 0 1 x)
  · exact (integrable_gaussianPDFReal 0 1).integrableOn
  · have hsupp : Function.support (gaussianPDFReal 0 1) = Set.univ :=
      Set.eq_univ_of_forall (fun x => (gaussianPDFReal_pos 0 1 x (by norm_num)).ne')
    rw [hsupp, Set.univ_inter, Real.volume_Ioc, ENNReal.ofReal_pos]
    linarith

open MeasureTheory ProbabilityTheory in
/-- The standard normal CDF is strictly increasing. -/
theorem Phi_strictMono : StrictMono Phi := by
  intro a b hab
  rw [Phi_eq_toReal, Phi_eq_toReal]
  have hsplit : gaussianReal 0 1 (Set.Iic b) =
      gaussianReal 0 1 (Set.Iic a) + gaussianReal 0 1 (Set.Ioc a b) := by
    rw [← measure_union (Set.Iic_disjoint_Ioc le_rfl) measurableSet_Ioc,
      Set.Iic_union_Ioc_eq_Iic hab.le]
  have hlt : gaussianReal 0 1 (Set.Iic a) < gaussianReal 0 1 (Set.Iic b) := by
    rw [hsplit]
    exact ENNReal.lt_add_right (measure_ne_top _ _) (gaussianReal_Ioc_pos a b hab).ne'
  exact (ENNReal.toReal_lt_toReal (measure_ne_top _ _) (measure_ne_top _ _)).mpr hlt

open MeasureTheory ProbabilityTheory in
/-- By the symmetry of the standard Gaussian, the two closed rays at `0`
carry equal mass. -/
theorem gaussianReal_Iic_zero_eq_Ici :
    gaussianReal 0 1 (Set.Iic 0) = gaussianReal 0 1 (Set.Ici 0) := by
  have hmap := @gaussianReal_map_const_mul 0 1 (-1)
  have hμ : (-1 : ℝ) * 0 = 0 := by norm_num
  have hv : (⟨(-1 : ℝ) ^ 2, sq_nonneg _⟩ : NNReal) * 1 = 1 := by
    ext
    norm_num
  rw [hμ, hv] at hmap
  have hpre : Set.preimage (fun x : ℝ => (-1) * x) (Set.Iic 0) = Set.Ici 0 := by
    ext x
    simp only [Set.mem_preimage, Set.mem_Iic, Set.mem_Ici]
    constructor <;> intro h <;> linarith
  calc gaussianReal 0 1 (Set.Iic 0)
      = ((gaussianReal 0 1).map (fun x => (-1) * x)) (Set.Iic 0) := by rw [hmap]
    _ = gaussianReal 0 1 (Set.preimage (fun x : ℝ => (-1) * x) (Set.Iic 0)) :=
        Measure.map_apply (measurable_id.const_mul (-1)) measurableSet_Iic
    _ = gaussianReal 0 1 (Set.Ici 0) := by rw [hpre]

open MeasureTheory ProbabilityTheory in
/-- The standard Gaussian puts no mass on points. -/
theorem gaussianReal_singleton_zero (a : ℝ) :
    gaussianReal 0 1 ({a} : Set ℝ) = 0 :=
  gaussianReal_absolutelyContinuous 0 (by norm_num) Real.volume_singleton

open MeasureTheory ProbabilityTheory in
/-- The standard normal CDF at `0` is one half. -/
theorem Phi_zero : Phi 0 = 1 / 2 := by
  have hIciIoi : gaussianReal 0 1 (Set.Ici 0) = gaussianReal 0 1 (Set.Ioi 0) := by
    refine le_antisymm ?_ (measure_mono Set.Ioi_subset_Ici_self)
    calc gaussianReal 0 1 (Set.Ici 0)
        = gaussianReal 0 1 ({0} ∪ Set.Ioi 0) := by
          rw [← Set.insert_eq, Set.Ioi_insert]
      _ ≤ gaussianReal 0 1 {0} + gaussianReal 0 1 (Set.Ioi 0) := measure_union_le _ _
      _ = gaussianReal 0 1 (Set.Ioi 0) := by
          rw [gaussianReal_singleton_zero, zero_add]
  have hadd : gaussianReal 0 1 (Set.Iic 0) + gaussianReal 0 1 (Set.Ioi 0) = 1 := by
    rw [← Set.compl_Iic, measure_add_measure_compl measurableSet_Iic]
    exact measure_univ
  have h2 : (gaussianReal 0 1 (Set.Iic 0)).toReal +
      (gaussianReal 0 1 (Set.Ioi 0)).toReal = 1 := by
    rw [← ENNReal.toReal_add (measure_ne_top _ _) (measure_ne_top _ _), hadd]
    rfl
  have h3 : (gaussianReal 0 1 (Set.Iic 0)).toReal =
      (gaussianReal 0 1 (Set.Ioi 0)).toReal := by
    rw [gaussianReal_Iic_zero_eq_Ici, hIciIoi]
  rw [Phi_eq_toReal]
  linarith

open MeasureTheory ProbabilityTheory in
/-- Below any positive level there are points of the CDF. -/
theorem exists_Phi_lt {p : ℝ} (hp : 0 < p) : ∃ x, Phi x < p := by
  have h : Filter.Tendsto Phi Filter.atBot (nhds 0) := tendsto_cdf_atBot _
  exact (h.eventually_lt_const hp).exists

open MeasureTheory ProbabilityTheory in
/-- Any level below one is eventually dominated by the CDF. -/
theorem exists_le_Phi {p : ℝ} (hp : p < 1) : ∃ x, p ≤ Phi x := by
  have h : Filter.Tendsto Phi Filter.atTop (nhds 1) := tendsto_cdf_atTop _
  obtain ⟨x, hx⟩ := (h.eventually_const_lt hp).exists
  exact ⟨x, hx.le⟩

/-- The sublevel set defining the quantile is nonempty for positive
levels. -/
theorem nonempty_sublevel {p : ℝ} (hp : 0 < p) : {x : ℝ | Phi x < p}.Nonempty :=
  exists_Phi_lt hp

/-- The sublevel set defining the quantile is bounded above for levels below
one. -/
theorem bddAbove_sublevel {p : ℝ} (hp : p < 1) : BddAbove {x : ℝ | Phi x < p} := by
  obtain ⟨b, hb⟩ := exists_le_Phi hp
  exact ⟨b, fun x hx => le_of_lt (Phi_strictMono.lt_iff_lt.mp (lt_of_lt_of_le hx hb))⟩

/-- The normal quantile function is monotone on `(0, 1)`. -/
theorem norm_ppf_mono {p q : ℝ} (hp : 0 < p) (hq : q < 1) (hpq : p ≤ q) :
    norm_ppf p ≤ norm_ppf q :=
  csSup_le_csSup (bddAbove_sublevel hq) (nonempty_sublevel hp)
    (fun _ hx => lt_of_lt_of_le hx hpq)

/-- The sublevel set of the CDF at one of its own values is the open lower
ray. -/
theorem sublevel_Phi_eq (a : ℝ) : {x : ℝ | Phi x < Phi a} = Set.Iio a := by
  ext x
  simp only [Set.mem_setOf_eq, Set.mem_Iio]
  exact Phi_strictMono.lt_iff_lt

/-- The quantile function inverts the CDF. -/
theorem norm_ppf_Phi (a : ℝ) : norm_ppf (Phi a) = a := by
  rw [norm_ppf, sublevel_Phi_eq, csSup_Iio]

/-- The z-score of a service level of at least one half is non-negative. -/
theorem norm_ppf_nonneg {p : ℝ} (hp1 : 1 / 2 ≤ p) (hp2 : p < 1) :
    0 ≤ norm_ppf p := by
  rcases eq_or_lt_of_le hp1 with heq | hlt
  · rw [← heq, ← Phi_zero, norm_ppf_Phi]
  · refine le_csSup (bddAbove_sublevel hp2) ?_
    show Phi 0 < p
    rw [Phi_zero]
    exact hlt

/-- C6, counterexample.  `Phi (-1)` is a valid service level in `(0,1)` whose
z-score is `norm_ppf (Phi (-1)) = -1 < 0`; at that service level, raising
sigma from `0` to `1` (with lead time `1` fixed) strictly decreases
`safety_stock = z * sigma * sqrt(lead_time)`.  The claimed monotonicity in
sigma on all of `(0,1)` is therefore false (and so is the claimed
monotonicity in lead time, for the same reason). -/
theorem C6_counterexample :
    Phi (-1) ∈ Set.Ioo (0 : ℝ) 1 ∧ (0 : ℝ) ≤ 1 ∧
      safety_stock (Phi (-1)) 1 1 < safety_stock (Phi (-1)) 0 1 := by
  have hpos : 0 < ProbabilityTheory.gaussianReal 0 1 (Set.Iic (-1)) :=
    lt_of_lt_of_le (gaussianReal_Ioc_pos (-2) (-1) (by norm_num))
      (MeasureTheory.measure_mono (fun x hx => hx.2))
  have h1 : 0 < Phi (-1) := by
    rw [Phi_eq_toReal]
    exact ENNReal.toReal_pos hpos.ne' (MeasureTheory.measure_ne_top _ _)
  have h2 : Phi (-1) < 1 := by
    have hlt := Phi_strictMono (show (-1 : ℝ) < 0 by norm_num)
    rw [Phi_zero] at hlt
    linarith
  refine ⟨⟨h1, h2⟩, by norm_num, ?_⟩
  rw [safety_stock, safety_stock, norm_ppf_Phi, Nat.cast_one, Real.sqrt_one]
  norm_num

/-- C6, amended.  The safety-stock formula `z * sigma * sqrt(lead_time)` is
monotone non-decreasing in the service level on all of `(0,1)` (for sigma at
least 0); it is monotone non-decreasing in sigma and in the lead time only
for service levels in `[1/2, 1)`, where the z-score is non-negative — for
service levels below one half the z-score is negative and the formula is
non-increasing in sigma and in lead time. -/
theorem C6_safety_stock_monotone :
    (∀ (L : ℕ) (sigma sl1 sl2 : ℝ), 0 ≤ sigma → sl1 ∈ Set.Ioo (0 : ℝ) 1 →
        sl2 ∈ Set.Ioo (0 : ℝ) 1 → sl1 ≤ sl2 →
        safety_stock sl1 sigma L ≤ safety_stock sl2 sigma L) ∧
      (∀ (L : ℕ) (sl sigma1 sigma2 : ℝ), sl ∈ Set.Ico (1 / 2 : ℝ) 1 →
        0 ≤ sigma1 → sigma1 ≤ sigma2 →
        safety_stock sl sigma1 L ≤ safety_stock sl sigma2 L) ∧
      (∀ (L1 L2 : ℕ) (sl sigma : ℝ), sl ∈ Set.Ico (1 / 2 : ℝ) 1 → 0 ≤ sigma →
        L1 ≤ L2 → safety_stock sl sigma L1 ≤ safety_stock sl sigma L2) := by
  refine ⟨?_, ?_, ?_⟩
  · intro L sigma sl1 sl2 hs h1 h2 h12
    rw [safety_stock, safety_stock]
    exact mul_le_mul_of_nonneg_right
      (mul_le_mul_of_nonneg_right (norm_ppf_mono h1.1 h2.2 h12) hs)
      (Real.sqrt_nonneg _)
  · intro L sl sigma1 sigma2 hsl hs1 h12
    rw [safety_stock, safety_stock]
    exact mul_le_mul_of_nonneg_right
      (mul_le_mul_of_nonneg_left h12 (norm_ppf_nonneg hsl.1 hsl.2))
      (Real.sqrt_nonneg _)
  · intro L1 L2 sl sigma hsl hs h12
    rw [safety_stock, safety_stock]
    exact mul_le_mul_of_nonneg_left
      (Real.sqrt_le_sqrt (by exact_mod_cast h12))
      (mul_nonneg (norm_ppf_nonneg hsl.1 hsl.2) hs)

/-- C6, witness: at service level one half, sigma between 1 and 2, lead time
2, the amended monotonicity in sigma applies. -/
theorem C6_witness : safety_stock (1 / 2) 1 2 ≤ safety_stock (1 / 2) 2 2 :=
  C6_safety_stock_monotone.2.1 2 (1 / 2) 1 2 ⟨le_rfl, by norm_num⟩ (by norm_num)
    (by norm_num)

end InventoryGame
